import Mathlib

/-!
Shallow embedding of the audit-application repository:
  * src/audit-lighthouse/crawl-urls.mjs      (link crawler)
  * src/audit-lighthouse/convert-pathnames-to-json.mjs
  * src/audit-redirect-file/audit-redirect.js
  * src/unnamed/part_000                     (sitemap harvester)

JavaScript strings are modelled as Lean `String` (lists of characters);
JavaScript `Set` objects, which iterate in insertion order, are modelled as
duplicate-free `List String` with membership-checked insertion at the end.
Network effects (`fetch`) are modelled as explicit oracle functions passed to
the embedded code.  Machine-level caveats (UTF-16 lengths, exotic Unicode
whitespace) are noted where they arise; all concrete inputs used in the
theorems below are ASCII, where the models agree with the JavaScript runtime
exactly.
-/

namespace Audit

/-- Membership-checked insertion at the end of a list: the model of
`Set.prototype.add` on a JavaScript `Set` (which keeps insertion order and
ignores duplicates). -/
def setInsert (l : List String) (x : String) : List String :=
  if x ∈ l then l else l ++ [x]

/-- Value of a hexadecimal digit, upper or lower case, as used by
percent-escapes in `decodeURIComponent`. -/
def hexDigitVal (c : Char) : Option Nat :=
  if '0' ≤ c ∧ c ≤ '9' then some (c.toNat - '0'.toNat)
  else if 'a' ≤ c ∧ c ≤ 'f' then some (c.toNat - 'a'.toNat + 10)
  else if 'A' ≤ c ∧ c ≤ 'F' then some (c.toNat - 'A'.toNat + 10)
  else none

/-- Tokenize a character list for percent-decoding: each `%XX` escape becomes
a byte (`Sum.inl`), every other character stays a character (`Sum.inr`).
A `%` not followed by two hex digits is a malformed escape and fails, as
`decodeURIComponent` throws a `URIError` there. -/
def pctTokens : List Char → Option (List (Nat ⊕ Char))
  | [] => some []
  | c :: rest =>
    if c = '%' then
      match rest with
      | h1 :: h2 :: rest2 =>
        match hexDigitVal h1, hexDigitVal h2 with
        | some a, some b => (pctTokens rest2).map (fun t => Sum.inl (16 * a + b) :: t)
        | _, _ => none
      | _ => none
    else (pctTokens rest).map (fun t => Sum.inr c :: t)

/-- Whether a byte is a UTF-8 continuation byte. -/
def isContByte (b : Nat) : Bool := 0x80 ≤ b ∧ b ≤ 0xBF

/-- Decode the token stream of `pctTokens`: runs of escaped bytes must form
valid UTF-8 (overlong encodings, surrogates and out-of-range code points are
rejected), exactly as `decodeURIComponent` requires; literal characters pass
through unchanged. -/
def decodeTokens : List (Nat ⊕ Char) → Option (List Char)
  | [] => some []
  | Sum.inr c :: rest => (decodeTokens rest).map (fun t => c :: t)
  | Sum.inl b :: rest =>
    if b < 0x80 then (decodeTokens rest).map (fun t => Char.ofNat b :: t)
    else if b < 0xC0 then none
    else if b < 0xE0 then
      match rest with
      | Sum.inl b2 :: rest2 =>
        if isContByte b2 then
          let cp := (b - 0xC0) * 0x40 + (b2 - 0x80)
          if 0x80 ≤ cp then (decodeTokens rest2).map (fun t => Char.ofNat cp :: t) else none
        else none
      | _ => none
    else if b < 0xF0 then
      match rest with
      | Sum.inl b2 :: Sum.inl b3 :: rest2 =>
        if isContByte b2 ∧ isContByte b3 then
          let cp := (b - 0xE0) * 0x1000 + (b2 - 0x80) * 0x40 + (b3 - 0x80)
          if 0x800 ≤ cp ∧ ¬(0xD800 ≤ cp ∧ cp ≤ 0xDFFF) then
            (decodeTokens rest2).map (fun t => Char.ofNat cp :: t)
          else none
        else none
      | _ => none
    else if b < 0xF8 then
      match rest with
      | Sum.inl b2 :: Sum.inl b3 :: Sum.inl b4 :: rest2 =>
        if isContByte b2 ∧ isContByte b3 ∧ isContByte b4 then
          let cp := (b - 0xF0) * 0x40000 + (b2 - 0x80) * 0x1000 +
            (b3 - 0x80) * 0x40 + (b4 - 0x80)
          if 0x10000 ≤ cp ∧ cp ≤ 0x10FFFF then
            (decodeTokens rest2).map (fun t => Char.ofNat cp :: t)
          else none
        else none
      | _ => none
    else none

/-- Model of the JavaScript `decodeURIComponent` function: `none` models a
thrown `URIError`. -/
def decodeURIComponentJS (s : String) : Option String :=
  (pctTokens s.data).bind (fun t => (decodeTokens t).map String.mk)

/-- Boolean infix test on character lists, used to model
`String.prototype.includes` (case sensitive). -/
def listInfixB (pat : List Char) : List Char → Bool
  | [] => pat.isEmpty
  | c :: rest => pat.isPrefixOf (c :: rest) || listInfixB pat rest

/-- Model of `s.includes(pat)`. -/
def strIncludes (s pat : String) : Bool := listInfixB pat.data s.data

/-- Model of `s.startsWith(pre)`. -/
def strStartsWith (s pre : String) : Bool := pre.data.isPrefixOf s.data

/-- Number of `/` characters in a string: the model of
`(url.match(/\//g) || []).length` in the crawler's depth heuristic. -/
def countSlashes (s : String) : Nat := (s.data.filter (fun c => c = '/')).length

/-- Character class of the JavaScript regex `\s` (the whitespace characters
relevant here; the full class also contains further exotic Unicode space
separators, none of which occur in the theorems below). -/
def jsWhitespace (c : Char) : Bool :=
  c = ' ' ∨ c = '\t' ∨ c = '\n' ∨ c = '\r' ∨ c = '\x0b' ∨ c = '\x0c' ∨
    c = ' ' ∨ c = ' ' ∨ c = ' ' ∨ c = '﻿'

/-- Model of `String.prototype.trim`: drop `jsWhitespace` characters from
both ends (implemented structurally so that the kernel can evaluate it). -/
def jsTrim (s : String) : String :=
  String.mk (((s.data.dropWhile jsWhitespace).reverse.dropWhile jsWhitespace).reverse)

/-- Split a character list at every newline: the model of `s.split('\n')`
(an empty input gives one empty line, a trailing newline a trailing empty
line, exactly as in JavaScript). -/
def splitNl : List Char → List (List Char)
  | [] => [[]]
  | c :: rest =>
    match splitNl rest with
    | [] => [[]]
    | first :: others =>
      if c = '\n' then [] :: first :: others
      else (c :: first) :: others

/-- Model of `content.split('\n')`. -/
def splitLines (s : String) : List String := (splitNl s.data).map String.mk

/-- Match of the regexes `/^\/[^\/]*X/` used by the validity filters: the
string starts with `/` and some character satisfying `pred` occurs in the
first slash-free segment after it.  (Faithful for the classes used in the
source — `[<>]`, `=`, `\s` — whose members are themselves not `/`.) -/
def firstSegmentHas (pred : Char → Bool) (p : String) : Bool :=
  match p.data with
  | '/' :: rest => (rest.takeWhile (fun c => c ≠ '/')).any pred
  | _ => false

/-- Match of the regex `/[%]{2,}/`: two consecutive `%` characters occur. -/
def hasDoublePercent : List Char → Bool
  | [] => false
  | [_] => false
  | a :: b :: rest => (a = '%' ∧ b = '%') || hasDoublePercent (b :: rest)

/-! ### Model of the WHATWG `URL` class

Restricted to what the scripts rely on: absolute `http://` / `https://` URL
strings, with `hostname` (authority up to an optional `:port`, lower-cased)
and `pathname` (from the first `/` after the authority up to `?` or `#`,
defaulting to `/`).  Other schemes, user-info and IPv6 hosts are out of the
model; `none` models a thrown `TypeError`. -/

structure URLRec where
  scheme : String
  hostname : String
  pathname : String
deriving DecidableEq

/-- Parse after the scheme: authority, then path. -/
def parseAfterScheme (scheme : String) (rest : List Char) : Option URLRec :=
  let auth := rest.takeWhile (fun c => c ≠ '/' ∧ c ≠ '?' ∧ c ≠ '#')
  let tail := rest.dropWhile (fun c => c ≠ '/' ∧ c ≠ '?' ∧ c ≠ '#')
  if auth = [] then none
  else
    let host := String.mk ((auth.takeWhile (fun c => c ≠ ':')).map Char.toLower)
    let path :=
      match tail with
      | '/' :: _ => String.mk (tail.takeWhile (fun c => c ≠ '?' ∧ c ≠ '#'))
      | _ => "/"
    some ⟨scheme, host, path⟩

/-- Model of `new URL(s)` on absolute http/https URL strings. -/
def parseURL (s : String) : Option URLRec :=
  if "http://".data.isPrefixOf s.data then parseAfterScheme "http" (s.data.drop 7)
  else if "https://".data.isPrefixOf s.data then parseAfterScheme "https" (s.data.drop 8)
  else none

/-! ### crawl-urls.mjs: pathname cleaning and validity filtering -/

/-- Embedding of `cleanPathname` from crawl-urls.mjs: decode URL-encoded
characters (keeping the original if decoding fails), cut query parameters and
fragments, and ensure a leading `/`. -/
def cleanPathname (pathname : String) : String :=
  let p := (decodeURIComponentJS pathname).getD pathname
  let p := String.mk (p.data.takeWhile (fun c => c ≠ '?'))
  let p := String.mk (p.data.takeWhile (fun c => c ≠ '#'))
  if strStartsWith p "/" then p else "/" ++ p

/-- Embedding of `isValidPathname` from crawl-urls.mjs.  (`pathname.length`
is the UTF-16 length in JavaScript; Lean counts code points — the two agree
outside astral-plane characters.) -/
def isValidPathname (pathname : String) : Bool :=
  if pathname = "" ∨ pathname = "/" then true
  else if strIncludes pathname "%3E" || strIncludes pathname "%3C" ||
      strIncludes pathname "%20" then false
  else if strIncludes pathname "<" || strIncludes pathname ">" then false
  else if firstSegmentHas (fun c => c = '<' ∨ c = '>') pathname then false
  else if strIncludes pathname "class=" || strIncludes pathname "id=" ||
      strIncludes pathname "style=" then false
  else if pathname.length > 200 then false
  else if hasDoublePercent pathname.data then false
  else if firstSegmentHas (fun c => c = '=') pathname then false
  else if firstSegmentHas jsWhitespace pathname then false
  else true

/-- The deployed pathname filter of the crawler is `isValidPathname`
composed with `cleanPathname` (see `extractPathnames`). -/
def pathnameFilter (p : String) : Bool := isValidPathname (cleanPathname p)

/-- Duplicate elimination keeping the first occurrence of each element, with
an accumulator of elements already seen: the model of `new Set(array)`
followed by spreading back to an array. -/
def dedupFirstAux (seen : List String) : List String → List String
  | [] => []
  | x :: xs =>
    if x ∈ seen then dedupFirstAux seen xs
    else x :: dedupFirstAux (x :: seen) xs

/-- Duplicate elimination keeping first occurrences: `[...new Set(l)]`. -/
def dedupFirst (l : List String) : List String := dedupFirstAux [] l

/-- Model of JavaScript `Array.prototype.sort()` on an array of strings:
a stable sort in lexicographic string order (the arrays sorted in this
repository are duplicate-free, so stability is irrelevant). -/
def jsSort (l : List String) : List String := List.insertionSort (· ≤ ·) l

/-- Embedding of `extractPathnames` from crawl-urls.mjs: filter the
discovered URLs to the base hostname, map each to its cleaned pathname,
keep the valid ones, deduplicate and sort. -/
def extractPathnames (urls : List String) (base : URLRec) : List String :=
  let host := base.hostname
  let filtered := urls.filter (fun url =>
    match parseURL url with
    | some u => decide (u.hostname = host)
    | none => false)
  let mapped := filtered.map (fun url =>
    match parseURL url with
    | some u => cleanPathname (if u.pathname = "" then "/" else u.pathname)
    | none => "/")
  jsSort (dedupFirst (mapped.filter (fun p => isValidPathname p)))

/-! ### crawl-urls.mjs: the crawl loop

`crawlWebsite` is embedded with the network abstracted as an oracle
`fetchEx : String → Option (List String)` standing for `fetchPage` followed
by `extractUrls`: `some found` is a successful fetch whose HTML yielded the
candidate URL list `found` (already normalized, same-domain and validity
filtered by `extractUrls`), `none` a fetch that threw.  The JavaScript batch
runs its ten tasks concurrently, but every task's synchronous prefix (the
visited check, `visited.add`, `pagesProcessed++`, and issuing the fetch) runs
to completion for the whole batch before any response continuation executes;
the embedding mirrors this with a marking phase (`markVisited`) followed by a
processing phase (`processActive`), with continuations applied in batch order
(the proved invariants do not depend on the resolution order, which only
permutes membership-checked set insertions).  The `while` loop is given
explicit fuel: every theorem below either holds for all fuel values or
quantifies the fuel it needs. -/

structure CrawlState where
  toVisit : List String
  visited : List String
  discoveredUrls : List String
  errors : List String
  pagesProcessed : Nat
  fetchLog : List String
deriving DecidableEq

/-- Marking phase of a batch: each batch member not yet visited is added to
`visited` and counted in `pagesProcessed` (the task's synchronous prefix); an
already-visited member returns early.  Returns the new visited list, the new
page count, and the members whose tasks stay active. -/
def markVisited : List String → List String → Nat → List String × Nat × List String
  | [], visited, pages => (visited, pages, [])
  | u :: rest, visited, pages =>
    if u ∈ visited then markVisited rest visited pages
    else
      let r := markVisited rest (visited ++ [u]) (pages + 1)
      (r.1, r.2.1, u :: r.2.2)

/-- Per-page continuation of a successful fetch: each found URL is added to
the discovered set, and enqueued to the frontier when the source URL's
approximate depth (`countSlashes url - 2`) is below `maxDepth` and the URL is
not yet visited. -/
def addFound (maxDepth : Int) (srcUrl : String) :
    List String → List String → List String → List String → List String × List String
  | [], _, discovered, toVisit => (discovered, toVisit)
  | f :: rest, visited, discovered, toVisit =>
    let discovered := setInsert discovered f
    let toVisit :=
      if (countSlashes srcUrl : Int) - 2 < maxDepth ∧ f ∉ visited then setInsert toVisit f
      else toVisit
    addFound maxDepth srcUrl rest visited discovered toVisit

/-- Processing phase of a batch: for each active member, the fetch is issued
(logged in `fetchLog`); a failed fetch records the URL in `errors`, a
successful one runs `addFound` on the extracted URLs. -/
def processActive (fetchEx : String → Option (List String)) (maxDepth : Int) :
    List String → CrawlState → CrawlState
  | [], s => s
  | u :: rest, s =>
    let s1 : CrawlState := { s with fetchLog := s.fetchLog ++ [u] }
    let s2 : CrawlState :=
      match fetchEx u with
      | none => { s1 with errors := s1.errors ++ [u] }
      | some found =>
        let dt := addFound maxDepth u found s1.visited s1.discoveredUrls s1.toVisit
        { s1 with discoveredUrls := dt.1, toVisit := dt.2 }
    processActive fetchEx maxDepth rest s2

/-- One iteration of the crawl loop: dequeue a batch of at most ten URLs in
insertion order, delete them from the frontier, mark them visited, then run
their fetch continuations. -/
def crawlStep (fetchEx : String → Option (List String)) (maxDepth : Int)
    (s : CrawlState) : CrawlState :=
  let currentBatch := s.toVisit.take 10
  let toVisit1 := s.toVisit.filter (fun u => decide (u ∉ currentBatch))
  let m := markVisited currentBatch s.visited s.pagesProcessed
  processActive fetchEx maxDepth m.2.2
    { s with toVisit := toVisit1, visited := m.1, pagesProcessed := m.2.1 }

/-- The crawl `while` loop: the termination condition (frontier empty or page
budget reached) is checked before each batch dequeue. -/
def crawlLoop (fetchEx : String → Option (List String)) (maxPages maxDepth : Int) :
    Nat → CrawlState → CrawlState
  | 0, s => s
  | Nat.succ fuel, s =>
    if 0 < s.toVisit.length ∧ (s.pagesProcessed : Int) < maxPages then
      crawlLoop fetchEx maxPages maxDepth fuel (crawlStep fetchEx maxDepth s)
    else s

/-- Initial crawl state: the frontier holds the seed, everything else is
empty. -/
def initState (startUrl : String) : CrawlState :=
  ⟨[startUrl], [], [], [], 0, []⟩

/-- Embedding of `crawlWebsite` from crawl-urls.mjs (state-level view). -/
def crawlWebsite (fetchEx : String → Option (List String)) (startUrl : String)
    (maxPages maxDepth : Int) (fuel : Nat) : CrawlState :=
  crawlLoop fetchEx maxPages maxDepth fuel (initState startUrl)

/-- The value returned by `crawlWebsite` in the source: sorted discovered
URLs, the error list, the page count and the discovered count. -/
structure CrawlResult where
  urls : List String
  errors : List String
  pagesProcessed : Nat
  totalDiscovered : Nat
deriving DecidableEq

/-- Reduction of the final crawl state to the returned `CrawlResult`. -/
def crawlResult (s : CrawlState) : CrawlResult :=
  ⟨jsSort s.discoveredUrls, s.errors, s.pagesProcessed, s.discoveredUrls.length⟩

/-- Outcome of `main` after the crawl: either no output file is written and a
`no URLs discovered` message lists the recorded per-URL errors, or the
pathname file is written. -/
inductive MainOutcome where
  | noUrls (errorsListed : List String)
  | wroteFile (pathnames : List String)
deriving DecidableEq

/-- Embedding of the post-crawl branch of `main` in crawl-urls.mjs: on zero
discovered URLs, report and stop; otherwise extract pathnames and write the
output file. -/
def mainDecision (r : CrawlResult) (base : URLRec) : MainOutcome :=
  if r.urls.length = 0 then .noUrls r.errors
  else .wroteFile (extractPathnames r.urls base)

/-- Frontier/visited invariant of the crawl loop: the frontier and the
visited list are duplicate-free and disjoint, the fetch log is exactly the
visited list, and the page counter equals the number of visited URLs. -/
def CrawlInv (s : CrawlState) : Prop :=
  s.toVisit.Nodup ∧ s.visited.Nodup ∧ (∀ u ∈ s.toVisit, u ∉ s.visited) ∧
    s.fetchLog = s.visited ∧ s.pagesProcessed = s.visited.length

/-! ### audit-redirect.js: the redirect checker

`checkRedirect` issues two fetches (one with `redirect: 'manual'`, one with
`redirect: 'follow'`); the observable response data is modelled as a record,
and a thrown fetch error as a separate outcome.  The `location` header is
read by the source but never used in its decision; the follow fields are
consulted only in the redirect branch. -/

structure RedirectObs where
  status : Nat
  location : Option String
  followUrl : String
  followStatus : Nat
deriving DecidableEq

/-- Outcome of the two fetches in `checkRedirect`: a thrown error (caught by
the surrounding `try`) or the observed responses. -/
inductive FetchOutcome where
  | err (msg : String)
  | ok (obs : RedirectObs)
deriving DecidableEq

/-- A row of `failedRedirects`: `statusVal = none` models the literal
`'Error'` status string written on a thrown error. -/
structure FailRow where
  fromUrl : String
  expected : String
  actual : String
  statusVal : Option Nat
deriving DecidableEq

/-- The hard-coded base URL of audit-redirect.js. -/
def condoBaseUrl : String := "https://www.condo-world.com"

/-- Embedding of `checkRedirect` from audit-redirect.js: returns the row
appended to `failedRedirects`, or `none` when no row is appended.  A redirect
status is accepted when the followed final URL equals the expected
destination OR the followed response status is 200; a plain 200 first
response is accepted; anything else (or a thrown fetch error) is recorded as
a failure. -/
def checkRedirect (fromUrl expectedToUrl : String) (o : FetchOutcome) : Option FailRow :=
  match o with
  | .err msg => some ⟨fromUrl, expectedToUrl, "Error: " ++ msg, none⟩
  | .ok obs =>
    if obs.status = 301 ∨ obs.status = 302 ∨ obs.status = 308 ∨ obs.status = 307 then
      if obs.followUrl = condoBaseUrl ++ expectedToUrl ∨ obs.followStatus = 200 then none
      else some ⟨fromUrl, expectedToUrl, obs.followUrl, some obs.followStatus⟩
    else if obs.status = 200 then none
    else some ⟨fromUrl, expectedToUrl, "", some obs.status⟩

/-! ### part_000: the sitemap harvester -/

/-- Case-insensitive prefix test on character lists (case folding via
`Char.toLower`), modelling the `i` flag of the scraping regexes. -/
def startsWithCI : List Char → List Char → Bool
  | [], _ => true
  | _ :: _, [] => false
  | p :: ps, c :: cs => (p.toLower = c.toLower) && startsWithCI ps cs

/-- Fuelled scanner for the regex matching `<loc>` elements with the `gi`
flags: at each position, match `<loc>`, capture one or more non-`<`
characters, require the closing `</loc>` and continue after it (JavaScript
`matchAll` matches do not overlap); otherwise advance one character.  The
fuel is the input length, which suffices because every step consumes at
least one character. -/
def extractLocsAux : Nat → List Char → List String
  | 0, _ => []
  | _ + 1, [] => []
  | fuel + 1, c :: rest =>
    if startsWithCI "<loc>".data (c :: rest) then
      let after := (c :: rest).drop 5
      let cap := after.takeWhile (fun x => x ≠ '<')
      let rem := after.dropWhile (fun x => x ≠ '<')
      if cap ≠ [] ∧ startsWithCI "</loc>".data rem then
        jsTrim (String.mk cap) :: extractLocsAux fuel (rem.drop 6)
      else extractLocsAux fuel rest
    else extractLocsAux fuel rest

/-- Embedding of `extractLocs` from part_000; each capture is trimmed with
`jsTrim`. -/
def extractLocs (xml : String) : List String :=
  extractLocsAux xml.data.length xml.data

/-- JavaScript word character, for the `\b` boundary. -/
def isWordChar (c : Char) : Bool := c.isAlphanum || c = '_'

/-- Match of the case-insensitive test for a `<sitemapindex` tag followed by
a word boundary, used to recognize sitemap-index documents. -/
def hasSitemapIndexTag : List Char → Bool
  | [] => false
  | c :: rest =>
    (startsWithCI "<sitemapindex".data (c :: rest) &&
      (match (c :: rest).drop 13 with
       | [] => true
       | d :: _ => !isWordChar d)) ||
    hasSitemapIndexTag rest

/-- State of the sitemap walk in `collectAllUrls` from part_000. -/
structure SitemapState where
  queue : List String
  seenSitemaps : List String
  urls : List String
  fetchLog : List String
deriving DecidableEq

/-- The `while (queue.length)` loop of `collectAllUrls`, with the network as
an oracle `fetchText : String → Option String` (`none` models a failed
fetch, which the source logs and skips) and explicit fuel; `fetchLog`
records each sitemap actually fetched.  A dequeued URL is skipped when falsy
(empty) or already seen; otherwise it is added to `seenSitemaps` before its
fetch, and its document either pushes child sitemaps onto the queue (sitemap
index) or adds its page URLs to the result set. -/
def collectLoop (fetchText : String → Option String) : Nat → SitemapState → SitemapState
  | 0, s => s
  | fuel + 1, s =>
    match s.queue with
    | [] => s
    | u :: rest =>
      if u = "" ∨ u ∈ s.seenSitemaps then
        collectLoop fetchText fuel { s with queue := rest }
      else
        let s1 : SitemapState :=
          { s with
            queue := rest
            seenSitemaps := s.seenSitemaps ++ [u]
            fetchLog := s.fetchLog ++ [u] }
        match fetchText u with
        | none => collectLoop fetchText fuel s1
        | some xml =>
          if hasSitemapIndexTag xml.data then
            collectLoop fetchText fuel { s1 with queue := s1.queue ++ extractLocs xml }
          else
            collectLoop fetchText fuel
              { s1 with urls := (extractLocs xml).foldl setInsert s1.urls }

/-- Initial state of the sitemap walk: the queue holds the sitemap URLs
taken from robots.txt (or the fallback locations). -/
def sitemapInit (robotsSitemaps : List String) : SitemapState :=
  ⟨robotsSitemaps, [], [], []⟩

/-- Embedding of `collectAllUrls` from part_000: run the walk on the queue
returned by `getRobotsSitemaps` and return the sorted collected URLs. -/
def collectAllUrls (fetchText : String → Option String)
    (robotsSitemaps : List String) (fuel : Nat) : List String :=
  jsSort (collectLoop fetchText fuel (sitemapInit robotsSitemaps)).urls

/-- Number of queue entries pushed when `u` is fetched: the child count of a
sitemap-index response, zero otherwise. -/
def sitePushLen (fetchText : String → Option String) (u : String) : Nat :=
  match fetchText u with
  | none => 0
  | some xml => if hasSitemapIndexTag xml.data then (extractLocs xml).length else 0

/-- Maximum of a list of naturals. -/
def listMaxNat : List Nat → Nat
  | [] => 0
  | n :: rest => max n (listMaxNat rest)

/-- Bound on the number of entries any single fetch of a sitemap in `U` can
push onto the queue. -/
def siteBound (fetchText : String → Option String) (U : List String) : Nat :=
  listMaxNat (U.map (sitePushLen fetchText))

/-- Termination measure of the sitemap walk relative to a finite universe
`U` of sitemap URLs: unvisited universe entries weighted by the maximal push
size, plus the queue length. -/
def smMeasure (fetchText : String → Option String) (U : List String)
    (s : SitemapState) : Nat :=
  (U.filter (fun u => decide (u ∉ s.seenSitemaps))).length *
    (siteBound fetchText U + 1) + s.queue.length

/-! ### convert-pathnames-to-json.mjs -/

/-- The data-bearing fields of the JSON document built by
convert-pathnames-to-json.mjs (the site name, base URL, timestamp and source
file metadata are environment-derived strings with no logic and are
omitted). -/
structure PathJson where
  pathnames : List String
  totalPathnames : Nat
deriving DecidableEq

/-- Embedding of the transform in `convertPathnamesToJson` from
convert-pathnames-to-json.mjs: split the file content on newlines, trim each
line, drop empty lines, and record the count. -/
def convertPathnamesToJson (content : String) : PathJson :=
  let pathnames := ((splitLines content).map jsTrim).filter
    (fun line => decide (0 < line.length))
  ⟨pathnames, pathnames.length⟩

end Audit

namespace Audit

/-- Membership in `dedupFirstAux`: an element is kept iff it occurs in the
input and was not already seen. -/
theorem mem_dedupFirstAux (l : List String) :
    ∀ (seen : List String) (x : String),
      x ∈ dedupFirstAux seen l ↔ x ∈ l ∧ x ∉ seen := by
  induction l with
  | nil => intro seen x; simp [dedupFirstAux]
  | cons a rest ih =>
    intro seen x
    by_cases ha : a ∈ seen
    · rw [show dedupFirstAux seen (a :: rest) = dedupFirstAux seen rest by
        simp [dedupFirstAux, ha]]
      rw [ih]
      simp only [List.mem_cons]
      constructor
      · rintro ⟨h1, h2⟩; exact ⟨Or.inr h1, h2⟩
      · rintro ⟨h1 | h1, h2⟩
        · exact absurd (h1 ▸ ha) h2
        · exact ⟨h1, h2⟩
    · rw [show dedupFirstAux seen (a :: rest) = a :: dedupFirstAux (a :: seen) rest by
        simp [dedupFirstAux, ha]]
      simp only [List.mem_cons, ih, List.mem_cons]
      constructor
      · rintro (h | ⟨h1, h2⟩)
        · exact ⟨Or.inl h, h ▸ ha⟩
        · exact ⟨Or.inr h1, fun hx => h2 (Or.inr hx)⟩
      · rintro ⟨h1 | h1, h2⟩
        · exact Or.inl h1
        · by_cases hxa : x = a
          · exact Or.inl hxa
          · exact Or.inr ⟨h1, fun hx => (hx.elim hxa h2)⟩

/-- Membership in `dedupFirst`. -/
theorem mem_dedupFirst (l : List String) (x : String) :
    x ∈ dedupFirst l ↔ x ∈ l := by
  simp [dedupFirst, mem_dedupFirstAux]

/-- `dedupFirstAux` produces a duplicate-free list. -/
theorem dedupFirstAux_nodup (l : List String) :
    ∀ seen : List String, (dedupFirstAux seen l).Nodup := by
  induction l with
  | nil => intro seen; simp [dedupFirstAux]
  | cons a rest ih =>
    intro seen
    by_cases ha : a ∈ seen
    · rw [show dedupFirstAux seen (a :: rest) = dedupFirstAux seen rest by
        simp [dedupFirstAux, ha]]
      exact ih seen
    · rw [show dedupFirstAux seen (a :: rest) = a :: dedupFirstAux (a :: seen) rest by
        simp [dedupFirstAux, ha]]
      refine List.nodup_cons.mpr ⟨?_, ih _⟩
      intro hmem
      rw [mem_dedupFirstAux] at hmem
      exact hmem.2 (List.mem_cons_self a seen)

/-- `dedupFirst` produces a duplicate-free list. -/
theorem dedupFirst_nodup (l : List String) : (dedupFirst l).Nodup :=
  dedupFirstAux_nodup l []

/-- Ensuring a leading slash indeed yields a string starting with `/`. -/
theorem startsWith_ensureSlash (q : String) :
    strStartsWith (if strStartsWith q "/" then q else "/" ++ q) "/" = true := by
  split
  · assumption
  · simp only [strStartsWith, String.data_append,
      show ("/" : String).data = ['/'] from rfl]
    simp [List.isPrefixOf]

/-- The cleaned pathname always starts with `/`. -/
theorem cleanPathname_startsWith (p : String) :
    strStartsWith (cleanPathname p) "/" = true := by
  unfold cleanPathname
  exact startsWith_ensureSlash _

/-- Characterization of membership in `extractPathnames`: every output
pathname is the cleaned pathname of some input URL whose parsed hostname
equals the base hostname. -/
theorem mem_extractPathnames (urls : List String) (base : URLRec) (p : String)
    (hp : p ∈ extractPathnames urls base) :
    ∃ url ∈ urls, ∃ u, parseURL url = some u ∧ u.hostname = base.hostname ∧
      p = cleanPathname (if u.pathname = "" then "/" else u.pathname) := by
  unfold extractPathnames jsSort at hp
  rw [List.mem_insertionSort, mem_dedupFirst, List.mem_filter] at hp
  obtain ⟨hpm, _⟩ := hp
  simp only [List.mem_map, List.mem_filter] at hpm
  obtain ⟨url, ⟨hin, hcond⟩, hmap⟩ := hpm
  cases hparse : parseURL url with
  | none => rw [hparse] at hcond; simp at hcond
  | some u =>
    rw [hparse] at hcond hmap
    simp only [decide_eq_true_eq] at hcond
    exact ⟨url, hin, u, hparse, hcond, hmap.symm⟩

/-- Two inputs with the same members give the same `extractPathnames`
output. -/
theorem extractPathnames_ext (l1 l2 : List String) (b : URLRec)
    (h : ∀ x, x ∈ l1 ↔ x ∈ l2) :
    extractPathnames l1 b = extractPathnames l2 b := by
  unfold extractPathnames jsSort
  refine List.eq_of_perm_of_sorted ?_ (List.sorted_insertionSort _ _)
    (List.sorted_insertionSort _ _)
  refine (List.perm_insertionSort _ _).trans
    (List.Perm.trans ?_ (List.perm_insertionSort _ _).symm)
  refine (List.perm_ext_iff_of_nodup (dedupFirst_nodup _) (dedupFirst_nodup _)).2 ?_
  intro a
  simp only [mem_dedupFirst, List.mem_filter, List.mem_map, h]

/-- C1: every pathname in the crawler's final output comes from a discovered
URL whose hostname equals the seed's hostname; the pathname is derived from
that URL by `cleanPathname`. -/
theorem extractPathnames_same_host (urls : List String) (base : URLRec)
    (p : String) (hp : p ∈ extractPathnames urls base) :
    ∃ url ∈ urls, ∃ u, parseURL url = some u ∧ u.hostname = base.hostname ∧
      p = cleanPathname (if u.pathname = "" then "/" else u.pathname) :=
  mem_extractPathnames urls base p hp

/-- C1 witness: on a concrete crawl with one same-host and one foreign URL,
`/about` is output and provably stems from the same-host URL. -/
theorem extractPathnames_same_host_witness :
    "/about" ∈ extractPathnames ["https://example.com/about", "http://other.com/x"]
      ⟨"https", "example.com", "/"⟩ ∧
    (∃ url ∈ ["https://example.com/about", "http://other.com/x"], ∃ u,
      parseURL url = some u ∧
      u.hostname = (⟨"https", "example.com", "/"⟩ : URLRec).hostname ∧
      "/about" = cleanPathname (if u.pathname = "" then "/" else u.pathname)) :=
  ⟨by decide, extractPathnames_same_host _ _ _ (by decide)⟩

/-- C7: `extractPathnames` is a deterministic set reduction — its output is
duplicate-free, sorted in string order, every entry starts with `/`, and the
output is invariant under duplicating or reordering the discovered-URL
set. -/
theorem extractPathnames_set_reduction (urls : List String) (base : URLRec) :
    (extractPathnames urls base).Nodup ∧
    List.Sorted (· ≤ ·) (extractPathnames urls base) ∧
    (∀ p ∈ extractPathnames urls base, strStartsWith p "/" = true) ∧
    extractPathnames (urls ++ urls) base = extractPathnames urls base ∧
    extractPathnames urls.reverse base = extractPathnames urls base := by
  refine ⟨?_, ?_, ?_, ?_, ?_⟩
  · unfold extractPathnames jsSort
    exact (List.perm_insertionSort _ _).symm.nodup (dedupFirst_nodup _)
  · unfold extractPathnames jsSort
    exact List.sorted_insertionSort _ _
  · intro p hp
    obtain ⟨url, _, u, _, _, hp'⟩ := mem_extractPathnames urls base p hp
    rw [hp']
    exact cleanPathname_startsWith _
  · exact extractPathnames_ext _ _ _ (by intro x; simp [List.mem_append])
  · exact extractPathnames_ext _ _ _ (by intro x; simp [List.mem_reverse])

/-- C7 witness: instantiation on a concrete duplicated, unordered input. -/
theorem extractPathnames_set_reduction_witness :
    (extractPathnames ["https://example.com/b", "https://example.com/a",
        "https://example.com/a"] ⟨"https", "example.com", "/"⟩).Nodup ∧
    List.Sorted (· ≤ ·) (extractPathnames ["https://example.com/b",
      "https://example.com/a", "https://example.com/a"]
      ⟨"https", "example.com", "/"⟩) ∧
    (∀ p ∈ extractPathnames ["https://example.com/b", "https://example.com/a",
        "https://example.com/a"] ⟨"https", "example.com", "/"⟩,
      strStartsWith p "/" = true) ∧
    extractPathnames (["https://example.com/b", "https://example.com/a",
        "https://example.com/a"] ++ ["https://example.com/b",
        "https://example.com/a", "https://example.com/a"])
      ⟨"https", "example.com", "/"⟩ =
      extractPathnames ["https://example.com/b", "https://example.com/a",
        "https://example.com/a"] ⟨"https", "example.com", "/"⟩ ∧
    extractPathnames (["https://example.com/b", "https://example.com/a",
        "https://example.com/a"].reverse) ⟨"https", "example.com", "/"⟩ =
      extractPathnames ["https://example.com/b", "https://example.com/a",
        "https://example.com/a"] ⟨"https", "example.com", "/"⟩ :=
  extractPathnames_set_reduction _ _

/-- C4: the validity filter rejects `/foo%3Cscript%3E`, accepts
`/normal/page.html`, rejects `/a%25%25b` (after `cleanPathname` decodes it to
`/a%%b`, two consecutive percent characters), and the root path `/` is
accepted. -/
theorem pathname_filter_examples :
    pathnameFilter "/foo%3Cscript%3E" = false ∧
    pathnameFilter "/normal/page.html" = true ∧
    pathnameFilter "/a%25%25b" = false ∧
    cleanPathname "/a%25%25b" = "/a%%b" ∧
    pathnameFilter "/" = true ∧
    isValidPathname "/" = true := by
  refine ⟨?_, ?_, ?_, ?_, ?_, ?_⟩ <;> decide

/-- Membership in `setInsert`. -/
theorem mem_setInsert (l : List String) (x y : String) :
    y ∈ setInsert l x ↔ y ∈ l ∨ y = x := by
  unfold setInsert
  split
  · rename_i h
    constructor
    · exact Or.inl
    · rintro (hy | rfl)
      · exact hy
      · exact h
  · simp [List.mem_append]

/-- `setInsert` preserves duplicate-freeness. -/
theorem setInsert_nodup (l : List String) (x : String) (h : l.Nodup) :
    (setInsert l x).Nodup := by
  unfold setInsert
  split
  · exact h
  · rename_i hx
    simp [List.nodup_append, h, hx]

/-- On a duplicate-free batch disjoint from the visited list, the marking
phase visits every member, counts every member, and keeps every task
active. -/
theorem markVisited_spec (batch : List String) :
    ∀ (visited : List String) (pages : Nat), batch.Nodup →
      (∀ u ∈ batch, u ∉ visited) →
      markVisited batch visited pages =
        (visited ++ batch, pages + batch.length, batch) := by
  induction batch with
  | nil => intro v p _ _; simp [markVisited]
  | cons u rest ih =>
    intro v p hnd hdis
    have hu : u ∉ v := hdis u (List.mem_cons_self u rest)
    have hnd' := List.nodup_cons.mp hnd
    simp only [markVisited, if_neg hu]
    rw [ih (v ++ [u]) (p + 1) hnd'.2 ?side]
    case side =>
      intro x hx
      simp only [List.mem_append, List.mem_singleton]
      rintro (hxv | rfl)
      · exact hdis x (List.mem_cons_of_mem u hx) hxv
      · exact hnd'.1 hx
    simp only [Prod.mk.injEq, List.length_cons, List.append_assoc,
      List.singleton_append, true_and, and_true]
    omega

/-- The marking phase increases the page counter by at most the batch
length. -/
theorem markVisited_pages_le (batch : List String) :
    ∀ (visited : List String) (pages : Nat),
      (markVisited batch visited pages).2.1 ≤ pages + batch.length := by
  induction batch with
  | nil => intro v p; simp [markVisited]
  | cons u rest ih =>
    intro v p
    by_cases hu : u ∈ v
    · simp only [markVisited, if_pos hu, List.length_cons]
      have := ih v p
      omega
    · simp only [markVisited, if_neg hu, List.length_cons]
      have := ih (v ++ [u]) (p + 1)
      omega

/-- Every URL in the frontier after `addFound` was already there or is not
visited. -/
theorem addFound_toVisit_mem (maxDepth : Int) (src : String) (found : List String) :
    ∀ (visited discovered toVisit : List String) (y : String),
      y ∈ (addFound maxDepth src found visited discovered toVisit).2 →
      y ∈ toVisit ∨ y ∉ visited := by
  induction found with
  | nil => intro v d t y h; exact Or.inl (by simpa [addFound] using h)
  | cons f rest ih =>
    intro v d t y h
    simp only [addFound] at h
    rcases ih v _ _ y h with hy | hy
    · by_cases hc : ((countSlashes src : Int) - 2 < maxDepth ∧ f ∉ v)
      · rw [if_pos hc] at hy
        rcases (mem_setInsert t f y).1 hy with h1 | rfl
        · exact Or.inl h1
        · exact Or.inr hc.2
      · rw [if_neg hc] at hy
        exact Or.inl hy
    · exact Or.inr hy

/-- `addFound` preserves duplicate-freeness of the frontier. -/
theorem addFound_toVisit_nodup (maxDepth : Int) (src : String) (found : List String) :
    ∀ (visited discovered toVisit : List String), toVisit.Nodup →
      (addFound maxDepth src found visited discovered toVisit).2.Nodup := by
  induction found with
  | nil => intro v d t h; simpa [addFound] using h
  | cons f rest ih =>
    intro v d t h
    simp only [addFound]
    apply ih
    split
    · exact setInsert_nodup t f h
    · exact h

/-- When the source URL's approximate depth is not below `maxDepth`, nothing
is enqueued. -/
theorem addFound_toVisit_of_ge (maxDepth : Int) (src : String)
    (hd : ¬((countSlashes src : Int) - 2 < maxDepth)) (found : List String) :
    ∀ (visited discovered toVisit : List String),
      (addFound maxDepth src found visited discovered toVisit).2 = toVisit := by
  induction found with
  | nil => intro v d t; simp [addFound]
  | cons f rest ih =>
    intro v d t
    simp only [addFound]
    rw [if_neg (fun hc => hd hc.1)]
    exact ih v _ t

/-- The processing phase never touches the visited list or the page counter,
and appends exactly the active batch to the fetch log. -/
theorem processActive_fields (fetchEx : String → Option (List String))
    (maxDepth : Int) (active : List String) :
    ∀ s : CrawlState,
      (processActive fetchEx maxDepth active s).visited = s.visited ∧
      (processActive fetchEx maxDepth active s).pagesProcessed = s.pagesProcessed ∧
      (processActive fetchEx maxDepth active s).fetchLog = s.fetchLog ++ active := by
  induction active with
  | nil => intro s; simp [processActive]
  | cons u rest ih =>
    intro s
    simp only [processActive]
    cases hf : fetchEx u with
    | none =>
      obtain ⟨h1, h2, h3⟩ := ih _
      exact ⟨h1, h2, by rw [h3]; simp⟩
    | some found =>
      obtain ⟨h1, h2, h3⟩ := ih _
      exact ⟨h1, h2, by rw [h3]; simp⟩

/-- The processing phase preserves duplicate-freeness of the frontier. -/
theorem processActive_toVisit_nodup (fetchEx : String → Option (List String))
    (maxDepth : Int) (active : List String) :
    ∀ s : CrawlState, s.toVisit.Nodup →
      (processActive fetchEx maxDepth active s).toVisit.Nodup := by
  induction active with
  | nil => intro s h; simpa [processActive] using h
  | cons u rest ih =>
    intro s h
    simp only [processActive]
    cases hf : fetchEx u with
    | none => exact ih _ h
    | some found => exact ih _ (addFound_toVisit_nodup _ _ _ _ _ _ h)

/-- The processing phase preserves disjointness of the frontier from the
visited list (the visited list itself is unchanged). -/
theorem processActive_toVisit_not_visited (fetchEx : String → Option (List String))
    (maxDepth : Int) (active : List String) :
    ∀ s : CrawlState, (∀ u ∈ s.toVisit, u ∉ s.visited) →
      ∀ u ∈ (processActive fetchEx maxDepth active s).toVisit,
        u ∉ (processActive fetchEx maxDepth active s).visited := by
  induction active with
  | nil => intro s h; simpa [processActive] using h
  | cons u rest ih =>
    intro s h
    simp only [processActive]
    cases hf : fetchEx u with
    | none => exact ih _ h
    | some found =>
      apply ih
      intro y hy
      rcases addFound_toVisit_mem maxDepth u found _ _ _ y hy with h1 | h1
      · exact h y h1
      · exact h1

/-- When no active member's approximate depth is below `maxDepth`, the
processing phase leaves the frontier unchanged. -/
theorem processActive_toVisit_of_ge (fetchEx : String → Option (List String))
    (maxDepth : Int) (active : List String)
    (hd : ∀ u ∈ active, ¬((countSlashes u : Int) - 2 < maxDepth)) :
    ∀ s : CrawlState, (processActive fetchEx maxDepth active s).toVisit = s.toVisit := by
  induction active with
  | nil => intro s; simp [processActive]
  | cons u rest ih =>
    intro s
    have hd' : ∀ v ∈ rest, ¬((countSlashes v : Int) - 2 < maxDepth) :=
      fun v hv => hd v (List.mem_cons_of_mem u hv)
    simp only [processActive]
    cases hf : fetchEx u with
    | none => exact ih hd' _
    | some found =>
      rw [ih hd' _]
      exact addFound_toVisit_of_ge maxDepth u (hd u (List.mem_cons_self u rest)) found _ _ _

/-- One crawl iteration preserves the frontier/visited invariant. -/
theorem crawlStep_inv (fetchEx : String → Option (List String)) (maxDepth : Int)
    (s : CrawlState) (h : CrawlInv s) : CrawlInv (crawlStep fetchEx maxDepth s) := by
  obtain ⟨htv, hv, hdisj, hlog, hpages⟩ := h
  have hsub : ∀ u ∈ s.toVisit.take 10, u ∈ s.toVisit :=
    fun u hu => List.take_subset _ _ hu
  have hbd : ∀ u ∈ s.toVisit.take 10, u ∉ s.visited := fun u hu => hdisj u (hsub u hu)
  have hnd : (s.toVisit.take 10).Nodup := (List.take_sublist _ _).nodup htv
  unfold crawlStep
  dsimp only
  rw [markVisited_spec _ _ _ hnd hbd]
  dsimp only
  set M : CrawlState :=
    { s with
      toVisit := s.toVisit.filter (fun u => decide (u ∉ s.toVisit.take 10)),
      visited := s.visited ++ s.toVisit.take 10,
      pagesProcessed := s.pagesProcessed + (s.toVisit.take 10).length } with hM
  obtain ⟨e1, e2, e3⟩ := processActive_fields fetchEx maxDepth (s.toVisit.take 10) M
  have hMtv : ∀ u ∈ M.toVisit, u ∉ M.visited := by
    intro u hu
    rw [hM] at hu ⊢
    simp only [List.mem_filter, decide_eq_true_eq] at hu
    simp only [List.mem_append]
    rintro (h1 | h1)
    · exact hdisj u hu.1 h1
    · exact hu.2 h1
  refine ⟨?_, ?_, ?_, ?_, ?_⟩
  · exact processActive_toVisit_nodup _ _ _ M (by rw [hM]; exact htv.filter _)
  · rw [e1, hM]
    refine List.Nodup.append hv hnd ?_
    intro a ha hab
    exact hbd a hab ha
  · intro u hu
    exact processActive_toVisit_not_visited _ _ _ M hMtv u hu
  · rw [e3, e1, hM]
    simp only
    rw [hlog]
  · rw [e2, e1, hM]
    simp only [List.length_append]
    omega

/-- The crawl loop preserves the frontier/visited invariant. -/
theorem crawlLoop_inv (fetchEx : String → Option (List String))
    (maxPages maxDepth : Int) :
    ∀ (fuel : Nat) (s : CrawlState), CrawlInv s →
      CrawlInv (crawlLoop fetchEx maxPages maxDepth fuel s) := by
  intro fuel
  induction fuel with
  | zero => intro s h; exact h
  | succ n ih =>
    intro s h
    simp only [crawlLoop]
    split
    · exact ih _ (crawlStep_inv fetchEx maxDepth s h)
    · exact h

/-- The initial crawl state satisfies the invariant. -/
theorem initState_inv (startUrl : String) : CrawlInv (initState startUrl) := by
  refine ⟨?_, ?_, ?_, rfl, rfl⟩ <;> simp [initState]

/-- C2: within a single run of `crawlWebsite`, no URL is fetched twice — the
fetch log is duplicate-free, the number of fetch calls equals the size of the
visited set, and the frontier stays disjoint from the visited set. -/
theorem crawlWebsite_no_refetch (fetchEx : String → Option (List String))
    (startUrl : String) (maxPages maxDepth : Int) (fuel : Nat) :
    (crawlWebsite fetchEx startUrl maxPages maxDepth fuel).fetchLog.Nodup ∧
    (crawlWebsite fetchEx startUrl maxPages maxDepth fuel).fetchLog.length =
      (crawlWebsite fetchEx startUrl maxPages maxDepth fuel).visited.length ∧
    ∀ u ∈ (crawlWebsite fetchEx startUrl maxPages maxDepth fuel).toVisit,
      u ∉ (crawlWebsite fetchEx startUrl maxPages maxDepth fuel).visited := by
  obtain ⟨htv, hv, hdisj, hlog, hpages⟩ :=
    crawlLoop_inv fetchEx maxPages maxDepth fuel (initState startUrl)
      (initState_inv startUrl)
  unfold crawlWebsite
  exact ⟨hlog ▸ hv, by rw [hlog], hdisj⟩

/-- C2 witness: instantiation on a concrete oracle and seed. -/
theorem crawlWebsite_no_refetch_witness :
    (crawlWebsite (fun _ => some ["https://example.com/a", "https://example.com/b"])
      "https://example.com/" 5 2 4).fetchLog.Nodup ∧
    (crawlWebsite (fun _ => some ["https://example.com/a", "https://example.com/b"])
      "https://example.com/" 5 2 4).fetchLog.length =
      (crawlWebsite (fun _ => some ["https://example.com/a", "https://example.com/b"])
        "https://example.com/" 5 2 4).visited.length ∧
    ∀ u ∈ (crawlWebsite (fun _ => some ["https://example.com/a", "https://example.com/b"])
        "https://example.com/" 5 2 4).toVisit,
      u ∉ (crawlWebsite (fun _ => some ["https://example.com/a", "https://example.com/b"])
        "https://example.com/" 5 2 4).visited :=
  crawlWebsite_no_refetch _ _ _ _ _

/-- One crawl iteration processes at most ten pages (the batch size). -/
theorem crawlStep_pages_le (fetchEx : String → Option (List String))
    (maxDepth : Int) (s : CrawlState) :
    (crawlStep fetchEx maxDepth s).pagesProcessed ≤ s.pagesProcessed + 10 := by
  unfold crawlStep
  dsimp only
  obtain ⟨-, e2, -⟩ := processActive_fields fetchEx maxDepth
    (markVisited (s.toVisit.take 10) s.visited s.pagesProcessed).2.2
    { s with
      toVisit := s.toVisit.filter (fun u => decide (u ∉ s.toVisit.take 10)),
      visited := (markVisited (s.toVisit.take 10) s.visited s.pagesProcessed).1,
      pagesProcessed := (markVisited (s.toVisit.take 10) s.visited s.pagesProcessed).2.1 }
  rw [e2]
  dsimp only
  have h1 := markVisited_pages_le (s.toVisit.take 10) s.visited s.pagesProcessed
  have h2 : (s.toVisit.take 10).length ≤ 10 := List.length_take_le _ _
  omega

/-- The crawl loop keeps the page counter at most `maxPages + 9`, because
the budget is checked before each batch of at most ten. -/
theorem crawlLoop_pages_le (fetchEx : String → Option (List String))
    (maxPages maxDepth : Int) :
    ∀ (fuel : Nat) (s : CrawlState),
      (s.pagesProcessed : Int) ≤ maxPages + 9 →
      ((crawlLoop fetchEx maxPages maxDepth fuel s).pagesProcessed : Int) ≤ maxPages + 9 := by
  intro fuel
  induction fuel with
  | zero => intro s h; exact h
  | succ n ih =>
    intro s h
    simp only [crawlLoop]
    split
    · rename_i hc
      apply ih
      have h10 := crawlStep_pages_le fetchEx maxDepth s
      have hlt := hc.2
      omega
    · exact h

/-- C6: the crawl checks its termination condition before each batch
dequeue and processes every member of a started batch of at most ten, so the
final page count never exceeds `maxPages + 9`. -/
theorem crawlWebsite_pages_bound (fetchEx : String → Option (List String))
    (startUrl : String) (maxPages maxDepth : Int) (fuel : Nat)
    (h : 0 ≤ maxPages) :
    ((crawlWebsite fetchEx startUrl maxPages maxDepth fuel).pagesProcessed : Int) ≤
      maxPages + 9 := by
  apply crawlLoop_pages_le
  simp only [initState]
  omega

/-- C6 witness: a concrete run stays within the overshoot bound. -/
theorem crawlWebsite_pages_bound_witness :
    (0 : Int) ≤ 1 ∧
    ((crawlWebsite (fun _ => some []) "https://example.com/" 1 3 5).pagesProcessed : Int) ≤
      1 + 9 :=
  ⟨by decide, crawlWebsite_pages_bound _ _ _ _ _ (by decide)⟩

/-- A crawl loop started on an empty frontier stops immediately. -/
theorem crawlLoop_empty_frontier (fetchEx : String → Option (List String))
    (maxPages maxDepth : Int) (fuel : Nat) (s : CrawlState)
    (h : s.toVisit = []) :
    crawlLoop fetchEx maxPages maxDepth fuel s = s := by
  cases fuel with
  | zero => rfl
  | succ n => simp [crawlLoop, h]

/-- C5: with `maxDepth = 0` and an http/https seed (at least two slashes in
the URL string), `crawlWebsite` fetches only the seed URL and never enqueues
any discovered URL: the approximate depth `countSlashes - 2` of the seed is
non-negative, so the enqueue condition `urlDepth < 0` is false. -/
theorem crawlWebsite_maxDepth_zero (fetchEx : String → Option (List String))
    (startUrl : String) (maxPages : Int) (fuel : Nat)
    (hs : 2 ≤ countSlashes startUrl) (hmp : 1 ≤ maxPages) (hf : 1 ≤ fuel) :
    (crawlWebsite fetchEx startUrl maxPages 0 fuel).visited = [startUrl] ∧
    (crawlWebsite fetchEx startUrl maxPages 0 fuel).toVisit = [] ∧
    (crawlWebsite fetchEx startUrl maxPages 0 fuel).fetchLog = [startUrl] := by
  have hd : ¬((countSlashes startUrl : Int) - 2 < (0 : Int)) := by omega
  have hstep : crawlStep fetchEx 0 (initState startUrl) =
      processActive fetchEx 0 [startUrl] ⟨[], [startUrl], [], [], 1, []⟩ := by
    unfold crawlStep initState
    dsimp only
    rw [show List.take 10 [startUrl] = [startUrl] from rfl]
    rw [markVisited_spec [startUrl] [] 0 (by simp) (by simp)]
    simp
  have hall : ∀ u ∈ [startUrl], ¬((countSlashes u : Int) - 2 < (0 : Int)) := by
    intro u hu
    rw [List.mem_singleton] at hu
    subst hu
    exact hd
  have htv1 : (crawlStep fetchEx 0 (initState startUrl)).toVisit = [] := by
    rw [hstep, processActive_toVisit_of_ge fetchEx 0 [startUrl] hall]
  obtain ⟨n, rfl⟩ : ∃ n, fuel = n + 1 := ⟨fuel - 1, by omega⟩
  have hunroll : crawlWebsite fetchEx startUrl maxPages 0 (n + 1) =
      crawlLoop fetchEx maxPages 0 n (crawlStep fetchEx 0 (initState startUrl)) := by
    unfold crawlWebsite
    simp only [crawlLoop]
    rw [if_pos ⟨by simp [initState], by simp [initState]; omega⟩]
  rw [hunroll, crawlLoop_empty_frontier _ _ _ _ _ htv1, hstep]
  obtain ⟨e1, e2, e3⟩ := processActive_fields fetchEx 0 [startUrl]
    ⟨[], [startUrl], [], [], 1, []⟩
  refine ⟨e1.trans rfl, ?_, e3.trans (by simp)⟩
  rw [hstep] at htv1
  exact htv1

/-- C5 witness: a concrete depth-zero crawl touches exactly the seed. -/
theorem crawlWebsite_maxDepth_zero_witness :
    2 ≤ countSlashes "https://example.com/" ∧ (1 : Int) ≤ 5 ∧ 1 ≤ 3 ∧
    ((crawlWebsite (fun _ => some ["https://example.com/a"]) "https://example.com/"
        5 0 3).visited = ["https://example.com/"] ∧
      (crawlWebsite (fun _ => some ["https://example.com/a"]) "https://example.com/"
        5 0 3).toVisit = [] ∧
      (crawlWebsite (fun _ => some ["https://example.com/a"]) "https://example.com/"
        5 0 3).fetchLog = ["https://example.com/"]) :=
  ⟨by decide, by decide, by decide,
    crawlWebsite_maxDepth_zero _ _ _ _ (by decide) (by decide) (by decide)⟩

/-- C8: the crawler writes no output file and reports the recorded per-URL
errors exactly when the crawl discovered zero URLs; the output file is
written only when at least one URL was discovered. -/
theorem main_zero_urls_no_file (s : CrawlState) (base : URLRec) :
    (mainDecision (crawlResult s) base = MainOutcome.noUrls s.errors ↔
      s.discoveredUrls = []) ∧
    ∀ ps, mainDecision (crawlResult s) base = MainOutcome.wroteFile ps →
      s.discoveredUrls ≠ [] := by
  have hlen : (crawlResult s).urls.length = s.discoveredUrls.length := by
    simp only [crawlResult, jsSort]
    exact (List.perm_insertionSort _ _).length_eq
  constructor
  · constructor
    · intro h
      by_contra hne
      have hne0 : (crawlResult s).urls.length ≠ 0 := by
        rw [hlen]
        simpa [List.length_eq_zero] using hne
      unfold mainDecision at h
      rw [if_neg hne0] at h
      exact MainOutcome.noConfusion h
    · intro h
      unfold mainDecision
      rw [if_pos (by rw [hlen, h]; rfl)]
      rfl
  · intro ps h hne0
    unfold mainDecision at h
    rw [if_pos (by rw [hlen, hne0]; rfl)] at h
    exact MainOutcome.noConfusion h

/-- C8 witness: instantiation on a concrete final crawl state with one
discovered URL and on its emptied variant. -/
theorem main_zero_urls_no_file_witness :
    ((mainDecision (crawlResult ⟨[], ["https://example.com/"], ["https://example.com/a"],
        [], 1, ["https://example.com/"]⟩) ⟨"https", "example.com", "/"⟩ =
      MainOutcome.noUrls [] ↔
      (["https://example.com/a"] : List String) = []) ∧
     ∀ ps, mainDecision (crawlResult ⟨[], ["https://example.com/"],
        ["https://example.com/a"], [], 1, ["https://example.com/"]⟩)
        ⟨"https", "example.com", "/"⟩ = MainOutcome.wroteFile ps →
       (["https://example.com/a"] : List String) ≠ []) :=
  main_zero_urls_no_file ⟨[], ["https://example.com/"], ["https://example.com/a"],
    [], 1, ["https://example.com/"]⟩ ⟨"https", "example.com", "/"⟩

/-- C3 counterexample: a redirecting old URL whose followed final
destination differs from the expected one is NOT recorded as a failure when
the followed response status is 200 — `checkRedirect` appends no row, so the
claimed `if and only if` fails in the only-if direction. -/
theorem checkRedirect_wrong_destination_not_recorded :
    checkRedirect "/old-page" "/right-page"
      (FetchOutcome.ok ⟨301, some "https://www.condo-world.com/wrong-page",
        "https://www.condo-world.com/wrong-page", 200⟩) = none ∧
    "https://www.condo-world.com/wrong-page" ≠ condoBaseUrl ++ "/right-page" ∧
    (301 = 301 ∨ 301 = 302 ∨ 301 = 308 ∨ 301 = 307) := by
  refine ⟨by decide, by decide, Or.inl rfl⟩

/-- C3 amended: a row is appended to `failedRedirects` iff the fetch threw,
or the first status is neither 200 nor a redirect status, or the status is a
redirect status and the followed final URL differs from the expected
destination AND the followed status is not 200.  In particular a redirect to
a wrong destination is recorded only when the followed status is not 200,
and a 200 first response is never recorded. -/
theorem checkRedirect_failure_characterization (fromUrl expectedToUrl : String)
    (o : FetchOutcome) :
    (∃ row, checkRedirect fromUrl expectedToUrl o = some row) ↔
      ((∃ msg, o = FetchOutcome.err msg) ∨
       (∃ obs, o = FetchOutcome.ok obs ∧
         (obs.status = 301 ∨ obs.status = 302 ∨ obs.status = 308 ∨ obs.status = 307) ∧
         obs.followUrl ≠ condoBaseUrl ++ expectedToUrl ∧ obs.followStatus ≠ 200) ∨
       (∃ obs, o = FetchOutcome.ok obs ∧
         ¬(obs.status = 301 ∨ obs.status = 302 ∨ obs.status = 308 ∨ obs.status = 307) ∧
         obs.status ≠ 200)) := by
  cases o with
  | err msg =>
    simp only [checkRedirect]
    constructor
    · intro _
      exact Or.inl ⟨msg, rfl⟩
    · intro _
      exact ⟨_, rfl⟩
  | ok obs =>
    simp only [checkRedirect]
    split_ifs with h1 h2 h3
    · constructor
      · rintro ⟨row, h⟩
        exact h.elim
      · rintro (⟨msg, h⟩ | ⟨obs2, heq, -, hne, hns⟩ | ⟨obs2, heq, hnred, -⟩)
        · exact h.elim
        · cases heq
          rcases h2 with h2 | h2
          · exact absurd h2 hne
          · exact absurd h2 hns
        · cases heq
          exact absurd h1 hnred
    · constructor
      · intro _
        refine Or.inr (Or.inl ⟨obs, rfl, h1, ?_, ?_⟩)
        · exact fun hc => h2 (Or.inl hc)
        · exact fun hc => h2 (Or.inr hc)
      · intro _
        exact ⟨_, rfl⟩
    · constructor
      · rintro ⟨row, h⟩
        exact h.elim
      · rintro (⟨msg, h⟩ | ⟨obs2, heq, hred, -, -⟩ | ⟨obs2, heq, -, hns⟩)
        · exact h.elim
        · cases heq
          exact absurd hred h1
        · cases heq
          exact absurd h3 hns
    · constructor
      · intro _
        exact Or.inr (Or.inr ⟨obs, rfl, h1, h3⟩)
      · intro _
        exact ⟨_, rfl⟩

/-- C3 witness for the amended characterization: a thrown fetch error is
recorded as a failure row. -/
theorem checkRedirect_failure_characterization_witness :
    (∃ row, checkRedirect "/a" "/b" (FetchOutcome.err "socket hang up") = some row) ↔
      ((∃ msg, FetchOutcome.err "socket hang up" = FetchOutcome.err msg) ∨
       (∃ obs, FetchOutcome.err "socket hang up" = FetchOutcome.ok obs ∧
         (obs.status = 301 ∨ obs.status = 302 ∨ obs.status = 308 ∨ obs.status = 307) ∧
         obs.followUrl ≠ condoBaseUrl ++ "/b" ∧ obs.followStatus ≠ 200) ∨
       (∃ obs, FetchOutcome.err "socket hang up" = FetchOutcome.ok obs ∧
         ¬(obs.status = 301 ∨ obs.status = 302 ∨ obs.status = 308 ∨ obs.status = 307) ∧
         obs.status ≠ 200)) :=
  checkRedirect_failure_characterization "/a" "/b" (FetchOutcome.err "socket hang up")

/-- Every member of a list of naturals is bounded by `listMaxNat`. -/
theorem mem_le_listMaxNat (l : List Nat) (n : Nat) (h : n ∈ l) : n ≤ listMaxNat l := by
  induction l with
  | nil => cases h
  | cons a rest ih =>
    rcases List.mem_cons.mp h with rfl | h1
    · exact le_max_left _ _
    · exact le_trans (ih h1) (le_max_right _ _)

/-- A fetch of a universe member pushes at most `siteBound` queue entries. -/
theorem sitePushLen_le_siteBound (fetchText : String → Option String)
    (U : List String) (u : String) (hu : u ∈ U) :
    sitePushLen fetchText u ≤ siteBound fetchText U :=
  mem_le_listMaxNat _ _ (List.mem_map_of_mem _ hu)

/-- Marking an unvisited universe member seen decreases the count of
unvisited universe members by exactly one. -/
theorem filter_seen_append_length (U : List String) (hU : U.Nodup)
    (seen : List String) (u : String) (huU : u ∈ U) (hus : u ∉ seen) :
    (U.filter (fun x => decide (x ∉ seen ++ [u]))).length + 1 =
      (U.filter (fun x => decide (x ∉ seen))).length := by
  induction U with
  | nil => cases huU
  | cons a rest ih =>
    have hnd := List.nodup_cons.mp hU
    rcases List.mem_cons.mp huU with rfl | haU
    · rw [List.filter_cons, List.filter_cons]
      have h1 : (decide (u ∉ seen ++ [u])) = false := by simp
      have h2 : (decide (u ∉ seen)) = true := by simpa using hus
      rw [h1, h2, if_neg (by simp), if_pos rfl]
      have heq : List.filter (fun x => decide (x ∉ seen ++ [u])) rest =
          List.filter (fun x => decide (x ∉ seen)) rest := by
        apply List.filter_congr
        intro x hx
        rw [decide_eq_decide]
        have hxa : x ≠ u := fun h => hnd.1 (h ▸ hx)
        simp [List.mem_append, hxa]
      rw [heq, List.length_cons]
    · rw [List.filter_cons, List.filter_cons]
      have hax : decide (a ∉ seen ++ [u]) = decide (a ∉ seen) := by
        rw [decide_eq_decide]
        have hau : a ≠ u := fun h => hnd.1 (h ▸ haU)
        simp [List.mem_append, hau]
      rw [hax]
      cases hcase : decide (a ∉ seen) with
      | false =>
        rw [if_neg (by simp), if_neg (by simp)]
        exact ih hnd.2 haU
      | true =>
        rw [if_pos rfl, if_pos rfl]
        simp only [List.length_cons]
        have := ih hnd.2 haU
        omega

/-- When the queue draws from a finite universe `U` (plus empty strings) and
every sitemap-index response mentions only universe entries, the walk runs
out of work within `smMeasure` steps: the final queue is empty. -/
theorem collectLoop_empties (fetchText : String → Option String) (U : List String)
    (hU : U.Nodup)
    (hresp : ∀ u xml, fetchText u = some xml → hasSitemapIndexTag xml.data = true →
      ∀ v ∈ extractLocs xml, v = "" ∨ v ∈ U) :
    ∀ (n : Nat) (s : SitemapState), (∀ v ∈ s.queue, v = "" ∨ v ∈ U) →
      smMeasure fetchText U s ≤ n →
      (collectLoop fetchText n s).queue = [] := by
  intro n
  induction n with
  | zero =>
    intro s hq hm
    have h0 : s.queue.length ≤ smMeasure fetchText U s := by
      unfold smMeasure
      exact Nat.le_add_left _ _
    have hlen : s.queue.length = 0 := by omega
    exact List.length_eq_zero.mp hlen
  | succ n ih =>
    intro s hq hm
    cases hque : s.queue with
    | nil => simp [collectLoop, hque]
    | cons u rest =>
      have hqrest : ∀ v ∈ rest, v = "" ∨ v ∈ U :=
        fun v hv => hq v (hque ▸ List.mem_cons_of_mem u hv)
      simp only [collectLoop, hque]
      split
      · apply ih _ hqrest
        have hmeq : smMeasure fetchText U { s with queue := rest } + 1 =
            smMeasure fetchText U s := by
          unfold smMeasure
          dsimp only
          rw [hque]
          simp only [List.length_cons]
          ring
        omega
      · rename_i hskip
        have hu1 : u ≠ "" := fun hc => hskip (Or.inl hc)
        have hu2 : u ∉ s.seenSitemaps := fun hc => hskip (Or.inr hc)
        have huU : u ∈ U := by
          rcases hq u (hque ▸ List.mem_cons_self u rest) with hc | hc
          · exact absurd hc hu1
          · exact hc
        have hfs := filter_seen_append_length U hU s.seenSitemaps u huU hu2
        split
        · rename_i hfetch
          apply ih _ hqrest
          refine Nat.lt_succ_iff.mp (lt_of_lt_of_le ?_ hm)
          unfold smMeasure
          dsimp only
          rw [hque, ← hfs]
          simp only [List.length_cons, Nat.add_mul, Nat.one_mul]
          generalize (List.filter (fun x => decide (x ∉ s.seenSitemaps ++ [u])) U).length *
            (siteBound fetchText U + 1) = P
          omega
        · rename_i xml hfetch
          split
          · rename_i hidx
            have hqnew : ∀ v ∈ rest ++ extractLocs xml, v = "" ∨ v ∈ U := by
              intro v hv
              rcases List.mem_append.mp hv with hv | hv
              · exact hqrest v hv
              · exact hresp u xml hfetch hidx v hv
            apply ih _ hqnew
            have hpush : (extractLocs xml).length ≤ siteBound fetchText U := by
              have hpl : sitePushLen fetchText u = (extractLocs xml).length := by
                unfold sitePushLen
                rw [hfetch]
                simp [hidx]
              exact hpl ▸ sitePushLen_le_siteBound fetchText U u huU
            refine Nat.lt_succ_iff.mp (lt_of_lt_of_le ?_ hm)
            unfold smMeasure
            dsimp only
            rw [hque, ← hfs]
            simp only [List.length_cons, List.length_append, Nat.add_mul, Nat.one_mul]
            generalize (List.filter (fun x => decide (x ∉ s.seenSitemaps ++ [u])) U).length *
              (siteBound fetchText U + 1) = P
            omega
          · rename_i hidx
            apply ih _ hqrest
            refine Nat.lt_succ_iff.mp (lt_of_lt_of_le ?_ hm)
            unfold smMeasure
            dsimp only
            rw [hque, ← hfs]
            simp only [List.length_cons, Nat.add_mul, Nat.one_mul]
            generalize (List.filter (fun x => decide (x ∉ s.seenSitemaps ++ [u])) U).length *
              (siteBound fetchText U + 1) = P
            omega

/-- Along the sitemap walk, the fetch log and the seen set coincide and stay
duplicate-free: a sitemap URL is fetched only after being marked seen. -/
theorem collectLoop_log (fetchText : String → Option String) :
    ∀ (n : Nat) (s : SitemapState), s.fetchLog = s.seenSitemaps →
      s.seenSitemaps.Nodup →
      (collectLoop fetchText n s).fetchLog = (collectLoop fetchText n s).seenSitemaps ∧
      (collectLoop fetchText n s).seenSitemaps.Nodup := by
  intro n
  induction n with
  | zero => intro s h1 h2; exact ⟨h1, h2⟩
  | succ n ih =>
    intro s h1 h2
    cases hque : s.queue with
    | nil =>
      simp only [collectLoop, hque]
      exact ⟨h1, h2⟩
    | cons u rest =>
      simp only [collectLoop, hque]
      split
      · exact ih _ h1 h2
      · rename_i hskip
        have hu2 : u ∉ s.seenSitemaps := fun hc => hskip (Or.inr hc)
        have h1' : s.fetchLog ++ [u] = s.seenSitemaps ++ [u] := by rw [h1]
        have h2' : (s.seenSitemaps ++ [u]).Nodup := by
          simp [List.nodup_append, h2, hu2]
        split
        · exact ih _ h1' h2'
        · split
          · exact ih _ h1' h2'
          · exact ih _ h1' h2'

/-- C9: `collectAllUrls` fetches each sitemap URL at most once (the fetch
log always equals the duplicate-free seen set), and for any fetch oracle
whose sitemap-index responses mention only finitely many distinct sitemap
URLs — a duplicate-free universe `U` covering the initial queue and every
pushed child — the walk terminates: some fuel empties the queue, even when
sitemap indexes reference each other cyclically. -/
theorem collectAllUrls_fetch_once_terminates (fetchText : String → Option String)
    (q0 : List String) (U : List String) (hU : U.Nodup)
    (hq0 : ∀ v ∈ q0, v = "" ∨ v ∈ U)
    (hresp : ∀ u xml, fetchText u = some xml → hasSitemapIndexTag xml.data = true →
      ∀ v ∈ extractLocs xml, v = "" ∨ v ∈ U) :
    (∀ fuel, (collectLoop fetchText fuel (sitemapInit q0)).fetchLog.Nodup) ∧
    (∃ fuel, (collectLoop fetchText fuel (sitemapInit q0)).queue = []) := by
  constructor
  · intro fuel
    obtain ⟨hlog, hnd⟩ := collectLoop_log fetchText fuel (sitemapInit q0) rfl
      (by simp [sitemapInit])
    rw [hlog]
    exact hnd
  · exact ⟨smMeasure fetchText U (sitemapInit q0),
      collectLoop_empties fetchText U hU hresp _ _ hq0 le_rfl⟩

/-- C9 witness: a two-element cyclic sitemap-index universe — `a` points to
`b` and `b` back to `a` — is fetched without repetition and the walk
terminates. -/
theorem collectAllUrls_fetch_once_terminates_witness :
    (∀ fuel, (collectLoop
        (fun u => if u = "a" then some "<sitemapindex><loc>b</loc></sitemapindex>"
          else if u = "b" then some "<sitemapindex><loc>a</loc></sitemapindex>"
          else none) fuel (sitemapInit ["a"])).fetchLog.Nodup) ∧
    (∃ fuel, (collectLoop
        (fun u => if u = "a" then some "<sitemapindex><loc>b</loc></sitemapindex>"
          else if u = "b" then some "<sitemapindex><loc>a</loc></sitemapindex>"
          else none) fuel (sitemapInit ["a"])).queue = []) := by
  apply collectAllUrls_fetch_once_terminates _ _ ["a", "b"] (by decide) (by decide)
  intro u xml h hidx v hv
  by_cases hua : u = "a"
  · subst hua
    rw [if_pos rfl] at h
    cases h
    have he : extractLocs "<sitemapindex><loc>b</loc></sitemapindex>" = ["b"] := by decide
    rw [he, List.mem_singleton] at hv
    subst hv
    exact Or.inr (by decide)
  · by_cases hub : u = "b"
    · subst hub
      rw [if_neg (by decide), if_pos rfl] at h
      cases h
      have he : extractLocs "<sitemapindex><loc>a</loc></sitemapindex>" = ["a"] := by decide
      rw [he, List.mem_singleton] at hv
      subst hv
      exact Or.inr (by decide)
    · rw [if_neg hua, if_neg hub] at h
      cases h

/-- C10: the converter's pathnames array is exactly the trimmed non-empty
lines of the input, in original order, and `totalPathnames` equals its
length; blank and whitespace-only lines never appear in the output. -/
theorem convertPathnamesToJson_lines (content : String) :
    (convertPathnamesToJson content).totalPathnames =
      (convertPathnamesToJson content).pathnames.length ∧
    (convertPathnamesToJson content).pathnames =
      ((splitLines content).map jsTrim).filter
        (fun line => decide (0 < line.length)) ∧
    (convertPathnamesToJson content).pathnames.Sublist
      ((splitLines content).map jsTrim) ∧
    (∀ p ∈ (convertPathnamesToJson content).pathnames, 0 < p.length) ∧
    (∀ line ∈ splitLines content, 0 < (jsTrim line).length →
      jsTrim line ∈ (convertPathnamesToJson content).pathnames) := by
  refine ⟨rfl, rfl, ?_, ?_, ?_⟩
  · exact List.filter_sublist _
  · intro p hp
    have := (List.mem_filter.mp hp).2
    simpa using this
  · intro line hline hpos
    exact List.mem_filter.mpr ⟨List.mem_map_of_mem _ hline, by simpa using hpos⟩

/-- C10 witness: instantiation on a file with a blank and a whitespace-only
line. -/
theorem convertPathnamesToJson_lines_witness :
    (convertPathnamesToJson "/a\n \n/b").totalPathnames =
      (convertPathnamesToJson "/a\n \n/b").pathnames.length ∧
    (convertPathnamesToJson "/a\n \n/b").pathnames =
      ((splitLines "/a\n \n/b").map jsTrim).filter
        (fun line => decide (0 < line.length)) ∧
    (convertPathnamesToJson "/a\n \n/b").pathnames.Sublist
      ((splitLines "/a\n \n/b").map jsTrim) ∧
    (∀ p ∈ (convertPathnamesToJson "/a\n \n/b").pathnames, 0 < p.length) ∧
    (∀ line ∈ splitLines "/a\n \n/b", 0 < (jsTrim line).length →
      jsTrim line ∈ (convertPathnamesToJson "/a\n \n/b").pathnames) :=
  convertPathnamesToJson_lines "/a\n \n/b"

end Audit
